import Mathlib

/-!
# A deck of playing cards: deck construction, shuffle and deal

Shallow embedding of `cards.go` and `dealer.go`.

* A Go slice `[]Card` is a `List Card`; `len` is `List.length`.
* Every indexing operation of the source is a checked operation here
  (`index`, `store`, the reslice in `dealHand`, the length given to `make`):
  where Go would panic, the embedding returns `Except.error`.
* The process-wide random source is an explicit argument: the outcome drawn
  for position `i` by `rand.Shuffle` is `draw i`.
* Text written with `fmt.Println` is returned as a list of lines.
* Go's `int` is modelled by `Int` (sizes) and `Nat` (loop counters and indices,
  which the loops keep non-negative); no arithmetic of the source can overflow:
  the only products are `NUM_CARDS*NUM_SUITS` and `i*NUM_SUITS+j`, below 52.
  A sum of two sizes formed by a caller is a 64-bit `int` sum and wraps around:
  that is `addInt`.
-/

namespace Cards

/-- Run-time panics that the Go code can raise. -/
inductive Panic where
  | indexOutOfRange
  | sliceBoundsOutOfRange
  | makeLenOutOfRange
  deriving DecidableEq, Repr

/-- Source type `Card` of `cards.go`: a rank name and a suit name. -/
structure Card where
  card : String
  suit : String
  deriving DecidableEq, Repr

/-- The zero value of `Card`, with which `make([]Card, n)` fills a new slice. -/
def Card.zero : Card := ⟨"", ""⟩

def NUM_CARDS : Nat := 13

def NUM_SUITS : Nat := 4

/-- All card names. -/
def cardNames : List String :=
  ["Ace", "Two", "Three", "Four", "Five", "Six", "Seven", "Eight", "Nine", "Ten",
   "Jack", "Queen", "King"]

def suitNames : List String := ["Spades", "Hearts", "Diamonds", "Clubs"]

/-- Checked read `xs[i]`: panics when `i` is not below `len(xs)`. -/
def index {α : Type} (xs : List α) (i : Nat) : Except Panic α :=
  match xs[i]? with
  | some x => .ok x
  | none => .error .indexOutOfRange

/-- Checked write `xs[i] = v`: panics when `i` is not below `len(xs)`. -/
def store {α : Type} (xs : List α) (i : Nat) (v : α) : Except Panic (List α) :=
  if i < xs.length then .ok (xs.set i v) else .error .indexOutOfRange

/-- Allocation `make([]Card, n)`: panics on a negative length. -/
def makeCards (n : Int) : Except Panic (List Card) :=
  if n < 0 then .error .makeLenOutOfRange else .ok (List.replicate n.toNat Card.zero)

/-- Source type `Deck` of `dealer.go`: the ordered slice of remaining cards. -/
structure Deck where
  cards : List Card
  deriving DecidableEq, Repr

/-- The closure handed to `rand.Shuffle` by `Deck.shuffle`:
`d.cards[i], d.cards[j] = d.cards[j], d.cards[i]`. -/
def swap (cards : List Card) (i j : Nat) : Except Panic (List Card) := do
  let cj ← index cards j
  let ci ← index cards i
  let cards ← store cards i cj
  store cards j ci

/-- The loop of the Go library routine `rand.Shuffle(n, swap)`, a Fisher-Yates
shuffle: `for i := n - 1; i > 0; i-- { j := r.intn(i + 1); swap(i, j) }`
(the library splits the loop in two at `i = 2^31 - 1` only to pick the width of
the generator call). The first argument is the random source (`draw i` is the
outcome `j` drawn at position `i`), the second the current value of `i`. -/
def shuffleLoop (draw : Nat → Nat) : Nat → List Card → Except Panic (List Card)
  | 0, cards => .ok cards
  | i + 1, cards => do
    let cards ← swap cards (i + 1) (draw (i + 1))
    shuffleLoop draw i cards

/-- Method `Deck.shuffle`: `rand.Shuffle(len(d.cards), swap)`. The receiver is
a copy of the deck sharing the backing array, so the swaps are seen by the
caller; the embedding returns the deck after the call. -/
def Deck.shuffle (d : Deck) (draw : Nat → Nat) : Except Panic Deck := do
  let cards ← shuffleLoop draw (d.cards.length - 1) d.cards
  pure ⟨cards⟩

/-- What a call of `dealHand` produces: the returned hand, the deck after the
call and the lines printed. -/
structure Dealt where
  hand : List Card
  deck : Deck
  out : List String
  deriving DecidableEq, Repr

/-- The copy loop of `dealHand`:
`for i := 0; i < size; i++ { hand[i] = d.cards[i] }`. -/
def copyLoop (cards : List Card) (size : Nat) (hand : List Card) :
    Except Panic (List Card) :=
  (List.range size).foldlM
    (fun hand i => do
      let c ← index cards i
      store hand i c)
    hand

/-- Method `Deck.dealHand`: deals a hand of `size` cards from the front of the
deck, clamping an oversized request to the number of cards left. -/
def Deck.dealHand (d : Deck) (size : Int) : Except Panic Dealt :=
  let n : Int := d.cards.length
  let short : Bool := decide (size > n)
  let size : Int := if short then n else size
  let out : List String :=
    if short then
      ["Not enough cards in the deck. Dealing " ++ toString size ++ " cards instead."]
    else []
  do
    let hand ← makeCards size
    let hand ← copyLoop d.cards size.toNat hand
    if size.toNat ≤ d.cards.length then
      pure ⟨hand, ⟨d.cards.drop size.toNat⟩, out⟩
    else
      .error .sliceBoundsOutOfRange

/-- Function `newDeck`: a 52-slot slice filled by the nested loops
`deck[i*NUM_SUITS+j] = Card{cardNames[i], suitNames[j]}`. -/
def newDeck : Except Panic Deck := do
  let deck ← makeCards (NUM_CARDS * NUM_SUITS : Nat)
  let deck ← (List.range NUM_CARDS).foldlM
    (fun deck i =>
      (List.range NUM_SUITS).foldlM
        (fun deck j => do
          let r ← index cardNames i
          let s ← index suitNames j
          store deck (i * NUM_SUITS + j) ⟨r, s⟩)
        deck)
    deck
  pure ⟨deck⟩

/-- The outcomes a random source can give to `rand.Shuffle` on `n` elements:
the draw for each position `i` from `n - 1` down to `1` lies in `[0, i]`. -/
def ValidDraws (n : Nat) (draw : Nat → Nat) : Prop :=
  ∀ i, 1 ≤ i → i < n → draw i ≤ i

/-- One call made on a deck by a client of the package. -/
inductive Op where
  | shuffle (draw : Nat → Nat)
  | dealHand (size : Int)

/-- The calls the contracts speak about: a shuffle whose draws are outcomes of
the random source (`draw i` in `[0, i]`; the draws at positions at or above the
deck size are never consulted), a deal of a non-negative size. -/
def Op.Valid : Op → Prop
  | .shuffle draw => ∀ i, 1 ≤ i → draw i ≤ i
  | .dealHand size => 0 ≤ size

/-- The deck after one call. -/
def step (d : Deck) : Op → Except Panic Deck
  | .shuffle draw => d.shuffle draw
  | .dealHand size => do
    let r ← d.dealHand size
    pure r.deck

/-- The deck after a sequence of calls, made in order. -/
def run (d : Deck) : List Op → Except Panic Deck
  | [] => pure d
  | op :: ops => do
    let d ← step d op
    run d ops

/-- A three-card deck used to instantiate the general theorems. -/
def threeCards : Deck :=
  ⟨[⟨"Ace", "Spades"⟩, ⟨"Two", "Hearts"⟩, ⟨"King", "Clubs"⟩]⟩

/-- The largest value of Go's 64-bit `int`. -/
def maxInt : Int := 2 ^ 63 - 1

/-- Go's `a + b` on 64-bit `int`: the sum is reduced modulo `2^64` into the range
from `-2^63` to `2^63 - 1`. -/
def addInt (a b : Int) : Int :=
  (a + b + 2 ^ 63) % 2 ^ 64 - 2 ^ 63

/-- Method `Card.read`: prints the line `<card> of <suit>`; the embedding
returns the line printed. -/
def Card.read (c : Card) : String :=
  c.card ++ " of " ++ c.suit

/-- Function `randomCard`: `card` and `suit` are the outcomes of
`rand.Intn(NUM_CARDS)` and `rand.Intn(NUM_SUITS)`. -/
def randomCard (card suit : Nat) : Except Panic Card := do
  let r ← index cardNames card
  let s ← index suitNames suit
  pure ⟨r, s⟩

/-- Method `Deck.read`: prints the number of cards, then every card in the
current order (`for _, card := range d.cards { card.read() }`). The receiver is
only read; the embedding returns the deck after the call and the lines
printed. -/
def Deck.read (d : Deck) : Deck × List String :=
  let out : List String :=
    ["There are " ++ toString d.cards.length ++ " cards in the deck."]
  (d, d.cards.foldl (fun out card => out ++ [card.read]) out)

/-- Method `Deck.dealHand` with the receiver made explicit: the deck held by
the receiver when the call ends, also when it ends in a panic, and what the call
produced (the hand and the lines printed). The only assignment to `d.cards` in
the source is the reslice that follows the copy loop. -/
def Deck.dealHandState (d : Deck) (size : Int) :
    Deck × Except Panic (List Card × List String) :=
  let n : Int := d.cards.length
  let short : Bool := decide (size > n)
  let size : Int := if short then n else size
  let out : List String :=
    if short then
      ["Not enough cards in the deck. Dealing " ++ toString size ++ " cards instead."]
    else []
  match makeCards size with
  | .error e => (d, .error e)
  | .ok hand =>
    match copyLoop d.cards size.toNat hand with
    | .error e => (d, .error e)
    | .ok hand =>
      if size.toNat ≤ d.cards.length then
        (⟨d.cards.drop size.toNat⟩, .ok (hand, out))
      else
        (d, .error .sliceBoundsOutOfRange)

/-! ## Checked accesses -/

theorem index_of_lt {α : Type} (xs : List α) (i : Nat) (h : i < xs.length) :
    index xs i = .ok xs[i] := by
  simp [index, List.getElem?_eq_getElem h]

theorem index_of_ge {α : Type} (xs : List α) (i : Nat) (h : xs.length ≤ i) :
    index xs i = .error .indexOutOfRange := by
  simp [index, List.getElem?_eq_none h]

theorem store_of_lt {α : Type} (xs : List α) (i : Nat) (v : α) (h : i < xs.length) :
    store xs i v = .ok (xs.set i v) := by
  simp [store, h]

theorem makeCards_ofNat (n : Nat) :
    makeCards (n : Int) = .ok (List.replicate n Card.zero) := by
  simp [makeCards]

/-! ## List facts used by the loops -/

theorem set_getElem_same {α : Type} (l : List α) (i : Nat) (hi : i < l.length) :
    l.set i l[i] = l := by
  apply List.ext_getElem?
  intro m
  by_cases h : i = m
  · subst h; simp [hi]
  · simp [h]

theorem set_take_append_drop {α : Type} (cards hand : List α) (k : Nat)
    (hk : k < cards.length) (hh : k < hand.length) :
    (cards.take k ++ hand.drop k).set k cards[k]
      = cards.take (k + 1) ++ hand.drop (k + 1) := by
  apply List.ext_getElem?
  intro m
  rcases Nat.lt_trichotomy m k with h | h | h
  · have : k ≠ m := by omega
    simp [this]
    rw [List.getElem?_append_left (by simp; omega), List.getElem?_append_left (by simp; omega)]
    simp [List.getElem?_take, h]
    rw [if_pos (by omega)]
  · subst h
    rw [List.getElem?_set_self (by simp; omega), List.getElem?_append_left (by simp; omega)]
    simp [List.getElem?_take, hk]
  · have : k ≠ m := by omega
    simp [this]
    rw [List.getElem?_append_right (by simp; omega), List.getElem?_append_right (by simp; omega)]
    have e1 : min k cards.length = k := by omega
    have e2 : min (k + 1) cards.length = k + 1 := by omega
    have e3 : k - k = 0 := by omega
    have e4 : (0 : Nat) ≠ m - k := by omega
    simp only [List.length_take, e1, e2, e3, List.getElem?_set_ne e4, List.getElem?_drop]
    congr 1
    omega

theorem swapped_perm (l : List Card) (i j : Nat) (hi : i < l.length) (hj : j < l.length) :
    ((l.set i l[j]).set j l[i]).Perm l := by
  by_cases hij : i = j
  · subst hij
    simp [set_getElem_same]
  rw [List.perm_iff_count]
  intro b
  rw [List.count_set _ _ _ _ (by simpa using hj), List.count_set _ _ _ _ hi]
  have h1 : ∀ (h : j < (l.set i l[j]).length), (l.set i l[j])[j] = l[j] := by
    intro h
    simp [List.getElem_set, hij]
  rw [h1]
  have h2 : (if (l[i] == b) = true then 1 else 0) ≤ l.count b := by
    split
    · rename_i h
      have : l[i] = b := by simpa using h
      have hm : b ∈ l := this ▸ List.getElem_mem hi
      exact List.count_pos_iff.mpr hm
    · omega
  omega

/-! ## The copy loop and `dealHand` -/

theorem copyLoop_front (cards hand : List Card) (k : Nat) (hk : k ≤ cards.length)
    (hh : k ≤ hand.length) :
    copyLoop cards k hand = .ok (cards.take k ++ hand.drop k) := by
  induction k with
  | zero => simp [copyLoop]; rfl
  | succ k ih =>
    have ih1 := ih (by omega) (by omega)
    unfold copyLoop at ih1 ⊢
    rw [List.range_succ, List.foldlM_append, ih1]
    have hl : k < (cards.take k ++ hand.drop k).length := by simp; omega
    simp [index_of_lt _ _ (show k < cards.length by omega), store_of_lt _ _ _ hl, bind,
      Except.bind, set_take_append_drop _ _ _ (show k < cards.length by omega)
        (show k < hand.length by omega)]
    rfl

theorem copyLoop_fresh (cards : List Card) (k : Nat) (hk : k ≤ cards.length) :
    copyLoop cards k (List.replicate k Card.zero) = .ok (cards.take k) := by
  rw [copyLoop_front cards _ k hk (by simp)]
  simp

theorem dealHand_of_le (d : Deck) (size : Int) (h0 : 0 ≤ size)
    (hle : size ≤ (d.cards.length : Int)) :
    d.dealHand size
      = .ok ⟨d.cards.take size.toNat, ⟨d.cards.drop size.toNat⟩, []⟩ := by
  obtain ⟨k, rfl⟩ := Int.eq_ofNat_of_zero_le h0
  have hk : k ≤ d.cards.length := by exact_mod_cast hle
  have hng : ¬ ((d.cards.length : Int) < (k : Int)) := by omega
  simp [Deck.dealHand, hng, makeCards_ofNat, copyLoop_fresh _ _ hk, hk, bind, Except.bind]
  rfl

theorem dealHand_of_gt (d : Deck) (size : Int) (hgt : (d.cards.length : Int) < size) :
    d.dealHand size
      = .ok ⟨d.cards, ⟨[]⟩,
          ["Not enough cards in the deck. Dealing " ++ toString (d.cards.length : Int)
            ++ " cards instead."]⟩ := by
  simp [Deck.dealHand, hgt, makeCards_ofNat, copyLoop_fresh _ _ (Nat.le_refl _), bind,
    Except.bind]
  rfl

/-! ## The swap closure and the shuffle loop -/

theorem swap_of_lt (cards : List Card) (i j : Nat) (hi : i < cards.length)
    (hj : j < cards.length) :
    swap cards i j = .ok ((cards.set i cards[j]).set j cards[i]) := by
  have hj2 : j < (cards.set i cards[j]).length := by simpa using hj
  simp [swap, index_of_lt _ _ hi, index_of_lt _ _ hj, store_of_lt _ _ _ hi,
    store_of_lt _ _ _ hj2, bind, Except.bind]

theorem swapped_getElem? (l : List Card) (i j : Nat) (hi : i < l.length)
    (hj : j < l.length) (m : Nat) :
    ((l.set i l[j]).set j l[i])[m]?
      = if m = j then l[i]? else if m = i then l[j]? else l[m]? := by
  by_cases h1 : m = j
  · subst h1
    rw [List.getElem?_set_self (by simpa using hj)]
    simp [List.getElem?_eq_getElem hi]
  · have h1a : j ≠ m := fun h => h1 h.symm
    rw [List.getElem?_set_ne h1a, if_neg h1]
    by_cases h2 : m = i
    · subst h2
      rw [List.getElem?_set_self hi]
      simp [List.getElem?_eq_getElem hj]
    · have h2a : i ≠ m := fun h => h2 h.symm
      rw [List.getElem?_set_ne h2a, if_neg h2]

/-- The shuffle loop started at position `i` inside the slice, with every draw in range,
returns a permutation of its input that leaves the positions above `i` alone. -/
theorem shuffleLoop_ok (draw : Nat → Nat) :
    ∀ (i : Nat) (cards : List Card), (i < cards.length ∨ i = 0) →
      (∀ k, 1 ≤ k → k ≤ i → draw k ≤ k) →
      ∃ out, shuffleLoop draw i cards = .ok out ∧ out.Perm cards ∧
        ∀ m, i < m → out[m]? = cards[m]? := by
  intro i
  induction i with
  | zero =>
    intro cards _ _
    exact ⟨cards, rfl, List.Perm.refl _, fun _ _ => rfl⟩
  | succ i ih =>
    intro cards hlen hdraw
    have hi : i + 1 < cards.length := by omega
    have hj : draw (i + 1) < cards.length := by
      have := hdraw (i + 1) (by omega) (by omega)
      omega
    have hperm := swapped_perm cards (i + 1) (draw (i + 1)) hi hj
    obtain ⟨out, hout, hp, hfix⟩ :=
      ih ((cards.set (i + 1) cards[draw (i + 1)]).set (draw (i + 1)) cards[i + 1])
        (Or.inl (by simp; omega)) (fun k h1 h2 => hdraw k h1 (by omega))
    refine ⟨out, ?_, hp.trans hperm, ?_⟩
    · simp [shuffleLoop, swap_of_lt _ _ _ hi hj, bind, Except.bind, hout]
    · intro m hm
      rw [hfix m (by omega), swapped_getElem? _ _ _ hi hj]
      have := hdraw (i + 1) (by omega) (by omega)
      rw [if_neg (by omega), if_neg (by omega)]

theorem shuffle_ok (d : Deck) (draw : Nat → Nat) (hv : ValidDraws d.cards.length draw) :
    ∃ out, d.shuffle draw = .ok ⟨out⟩ ∧ out.Perm d.cards := by
  obtain ⟨out, h1, h2, _⟩ := shuffleLoop_ok draw (d.cards.length - 1) d.cards (by omega)
    (fun k h1 h2 => hv k h1 (by omega))
  exact ⟨out, by simp [Deck.shuffle, h1, bind, Except.bind]; rfl, h2⟩

/-! ## Every ordering comes from exactly one sequence of draws -/

theorem shuffleLoop_congr (d1 d2 : Nat → Nat) :
    ∀ (i : Nat) (cards : List Card), (∀ k, 1 ≤ k → k ≤ i → d1 k = d2 k) →
      shuffleLoop d1 i cards = shuffleLoop d2 i cards := by
  intro i
  induction i with
  | zero => intro cards _; rfl
  | succ i ih =>
    intro cards h
    simp only [shuffleLoop, h (i + 1) (by omega) (by omega)]
    congr 1
    funext c
    exact ih c (fun k h1 h2 => h k h1 (by omega))

theorem eq_of_perm_of_tail (p cards : List Card) (hn : cards.Nodup) (hp : p.Perm cards)
    (h : ∀ m, 0 < m → p[m]? = cards[m]?) : p = cards := by
  cases p with
  | nil => exact (List.nil_perm.mp hp).symm
  | cons a t =>
    cases cards with
    | nil => simpa using hp.length_eq
    | cons b u =>
      have htu : t = u := by
        apply List.ext_getElem?
        intro m
        simpa using h (m + 1) (by omega)
      subst htu
      have hpn : (a :: t).Nodup := hp.nodup_iff.mpr hn
      have ha : a ∈ b :: t := hp.subset (List.mem_cons_self a t)
      rcases List.mem_cons.mp ha with hab | hat
      · rw [hab]
      · exact absurd hat (List.nodup_cons.mp hpn).1

theorem shuffleLoop_onto :
    ∀ (i : Nat) (cards p : List Card), cards.Nodup → (i < cards.length ∨ i = 0) →
      p.Perm cards → (∀ m, i < m → p[m]? = cards[m]?) →
      ∃ draw : Nat → Nat, (∀ k, 1 ≤ k → k ≤ i → draw k ≤ k) ∧
        shuffleLoop draw i cards = .ok p := by
  intro i
  induction i with
  | zero =>
    intro cards p hn _ hp hfix
    refine ⟨fun _ => 0, fun k h1 h2 => by omega, ?_⟩
    rw [eq_of_perm_of_tail p cards hn hp hfix]
    rfl
  | succ i ih =>
    intro cards p hn hlen hp hfix
    have hi : i + 1 < cards.length := by omega
    have hpl : p.length = cards.length := hp.length_eq
    have hip : i + 1 < p.length := by omega
    have hpn : p.Nodup := hp.nodup_iff.mpr hn
    -- the card that must end at position `i + 1` and where it sits now
    have hmem : p[i + 1] ∈ cards := hp.subset (List.getElem_mem hip)
    obtain ⟨k, hk, hkx⟩ := List.getElem_of_mem hmem
    have hki : k ≤ i + 1 := by
      by_contra hc
      have h1 : p[k]? = cards[k]? := hfix k (by omega)
      have hkp : k < p.length := by omega
      rw [List.getElem?_eq_getElem hkp, List.getElem?_eq_getElem hk, hkx] at h1
      have h2 : p[k] = p[i + 1] := by simpa using h1
      have := (List.Nodup.getElem_inj_iff hpn).mp h2
      omega
    have hperm := swapped_perm cards (i + 1) k hi hk
    obtain ⟨draw, hdraw, hrun⟩ :=
      ih ((cards.set (i + 1) cards[k]).set k cards[i + 1]) p
        (hperm.nodup_iff.mpr hn) (Or.inl (by simp; omega)) (hp.trans hperm.symm)
        (by
          intro m hm
          rw [swapped_getElem? _ _ _ hi hk]
          by_cases hmk : m = k
          · have hmi : m = i + 1 := by omega
            subst hmi
            rw [if_pos hmk, List.getElem?_eq_getElem hip, List.getElem?_eq_getElem hi]
            subst hmk
            rw [hkx]
          · rw [if_neg hmk]
            by_cases hmi : m = i + 1
            · rw [if_pos hmi, hmi, List.getElem?_eq_getElem hip, List.getElem?_eq_getElem hk,
                hkx]
            · rw [if_neg hmi]
              exact hfix m (by omega))
    refine ⟨Function.update draw (i + 1) k, ?_, ?_⟩
    · intro j h1 h2
      by_cases hj : j = i + 1
      · subst hj; simpa using hki
      · rw [Function.update_noteq hj]
        exact hdraw j h1 (by omega)
    · have hc := shuffleLoop_congr (Function.update draw (i + 1) k) draw i
        ((cards.set (i + 1) cards[k]).set k cards[i + 1])
        (fun j h1 h2 => Function.update_noteq (by omega) _ _)
      simp [shuffleLoop, swap_of_lt _ _ _ hi hk, bind, Except.bind, hc, hrun]

theorem shuffleLoop_inj (d1 d2 : Nat → Nat) :
    ∀ (i : Nat) (cards : List Card), cards.Nodup → (i < cards.length ∨ i = 0) →
      (∀ k, 1 ≤ k → k ≤ i → d1 k ≤ k) → (∀ k, 1 ≤ k → k ≤ i → d2 k ≤ k) →
      shuffleLoop d1 i cards = shuffleLoop d2 i cards →
      ∀ k, 1 ≤ k → k ≤ i → d1 k = d2 k := by
  intro i
  induction i with
  | zero => intro cards _ _ _ _ _ k h1 h2; omega
  | succ i ih =>
    intro cards hn hlen hv1 hv2 heq
    have hi : i + 1 < cards.length := by omega
    have hb1 := hv1 (i + 1) (by omega) (by omega)
    have hb2 := hv2 (i + 1) (by omega) (by omega)
    have hj1 : d1 (i + 1) < cards.length := by omega
    have hj2 : d2 (i + 1) < cards.length := by omega
    obtain ⟨o1, ho1, _, hf1⟩ := shuffleLoop_ok d1 i
      ((cards.set (i + 1) cards[d1 (i + 1)]).set (d1 (i + 1)) cards[i + 1])
      (Or.inl (by simp; omega)) (fun k h1 h2 => hv1 k h1 (by omega))
    obtain ⟨o2, ho2, _, hf2⟩ := shuffleLoop_ok d2 i
      ((cards.set (i + 1) cards[d2 (i + 1)]).set (d2 (i + 1)) cards[i + 1])
      (Or.inl (by simp; omega)) (fun k h1 h2 => hv2 k h1 (by omega))
    have hr1 : shuffleLoop d1 (i + 1) cards = .ok o1 := by
      simp [shuffleLoop, swap_of_lt _ _ _ hi hj1, bind, Except.bind, ho1]
    have hr2 : shuffleLoop d2 (i + 1) cards = .ok o2 := by
      simp [shuffleLoop, swap_of_lt _ _ _ hi hj2, bind, Except.bind, ho2]
    have ho : o1 = o2 := by
      rw [hr1, hr2] at heq
      exact Except.ok.inj heq
    -- position `i + 1` of the result holds the card drawn for it
    have h1 := hf1 (i + 1) (by omega)
    have h2 := hf2 (i + 1) (by omega)
    rw [swapped_getElem? _ _ _ hi hj1] at h1
    rw [swapped_getElem? _ _ _ hi hj2] at h2
    have e1 : o1[i + 1]? = cards[d1 (i + 1)]? := by
      rw [h1]
      by_cases hc : i + 1 = d1 (i + 1)
      · rw [if_pos hc]
        exact congrArg (fun x => cards[x]?) hc
      · rw [if_neg hc, if_pos rfl]
    have e2 : o2[i + 1]? = cards[d2 (i + 1)]? := by
      rw [h2]
      by_cases hc : i + 1 = d2 (i + 1)
      · rw [if_pos hc]
        exact congrArg (fun x => cards[x]?) hc
      · rw [if_neg hc, if_pos rfl]
    have hsame : cards[d1 (i + 1)] = cards[d2 (i + 1)] := by
      rw [ho, e2, List.getElem?_eq_getElem hj1, List.getElem?_eq_getElem hj2] at e1
      exact (Option.some.inj e1).symm
    have htop : d1 (i + 1) = d2 (i + 1) := (List.Nodup.getElem_inj_iff hn).mp hsame
    intro k hk1 hk2
    by_cases hk : k = i + 1
    · rw [hk]; exact htop
    · have hperm := swapped_perm cards (i + 1) (d1 (i + 1)) hi hj1
      refine ih ((cards.set (i + 1) cards[d1 (i + 1)]).set (d1 (i + 1)) cards[i + 1])
        (hperm.nodup_iff.mpr hn) (Or.inl (by simp; omega))
        (fun k h1 h2 => hv1 k h1 (by omega)) (fun k h1 h2 => hv2 k h1 (by omega)) ?_
        k hk1 (by omega)
      rw [ho1]
      simp only [htop]
      rw [ho2, ho]

/-! ## Deck construction -/

theorem newDeck_eq :
    newDeck = .ok ⟨cardNames.flatMap fun r => suitNames.map fun s => ⟨r, s⟩⟩ := by
  rfl

/-- C1: `newDeck()` returns a deck of exactly 52 cards in which every pair of one
of the 13 rank names and one of the 4 suit names occurs exactly once, and every card
of the deck has its rank in `cardNames` and its suit in `suitNames`. -/
theorem newDeck_full :
    ∃ d, newDeck = .ok d ∧ d.cards.length = 52 ∧
      cardNames.length = 13 ∧ suitNames.length = 4 ∧ cardNames.Nodup ∧ suitNames.Nodup ∧
      (∀ r ∈ cardNames, ∀ s ∈ suitNames, d.cards.count ⟨r, s⟩ = 1) ∧
      (∀ c ∈ d.cards, c.card ∈ cardNames ∧ c.suit ∈ suitNames) := by
  refine ⟨_, newDeck_eq, ?_, ?_, ?_, ?_, ?_, ?_, ?_⟩
  · rfl
  · rfl
  · rfl
  · decide
  · decide
  · decide
  · decide

/-! ## Dealing -/

/-- C2: for a deck of `N` cards and `0 ≤ size ≤ N`, `dealHand(size)` returns the first
`size` cards of the deck in order and leaves the deck with the other `N - size` cards in
their original order. -/
theorem dealHand_front (d : Deck) (size : Int) (h0 : 0 ≤ size)
    (hle : size ≤ (d.cards.length : Int)) :
    ∃ r, d.dealHand size = .ok r ∧
      (r.hand.length : Int) = size ∧
      r.hand = d.cards.take size.toNat ∧
      r.deck.cards = d.cards.drop size.toNat ∧
      (r.deck.cards.length : Int) = (d.cards.length : Int) - size ∧
      r.hand ++ r.deck.cards = d.cards := by
  refine ⟨_, dealHand_of_le d size h0 hle, ?_, rfl, rfl, ?_, ?_⟩
  · simp only [List.length_take]
    omega
  · simp only [List.length_drop]
    omega
  · exact List.take_append_drop _ _

theorem dealHand_front_witness :
    (0 : Int) ≤ 2 ∧ (2 : Int) ≤ (threeCards.cards.length : Int) ∧
    ∃ r, threeCards.dealHand 2 = .ok r ∧
      (r.hand.length : Int) = 2 ∧
      r.hand = threeCards.cards.take (2 : Int).toNat ∧
      r.deck.cards = threeCards.cards.drop (2 : Int).toNat ∧
      (r.deck.cards.length : Int) = (threeCards.cards.length : Int) - 2 ∧
      r.hand ++ r.deck.cards = threeCards.cards :=
  ⟨by decide, by decide, dealHand_front threeCards 2 (by decide) (by decide)⟩

/-- C3: for a deck of `N` cards and `size > N`, `dealHand(size)` raises no error, returns
the whole deck (`N` cards, in order) and leaves the deck empty. -/
theorem dealHand_oversized (d : Deck) (size : Int) (hgt : (d.cards.length : Int) < size) :
    ∃ r, d.dealHand size = .ok r ∧
      r.hand = d.cards ∧ r.hand.length = d.cards.length ∧
      r.deck.cards = [] ∧ r.deck.cards.length = 0 :=
  ⟨_, dealHand_of_gt d size hgt, rfl, rfl, rfl, rfl⟩

theorem dealHand_oversized_witness :
    (threeCards.cards.length : Int) < 10 ∧
    ∃ r, threeCards.dealHand 10 = .ok r ∧
      r.hand = threeCards.cards ∧ r.hand.length = threeCards.cards.length ∧
      r.deck.cards = [] ∧ r.deck.cards.length = 0 :=
  ⟨by decide, dealHand_oversized threeCards 10 (by decide)⟩

/-! ## Shuffling -/

/-- C4: for every deck and every outcome of the random source, `shuffle()` succeeds and
the deck after it is a permutation of the deck before: same length, and every card occurs
as often as before. -/
theorem shuffle_perm (d : Deck) (draw : Nat → Nat)
    (hv : ValidDraws d.cards.length draw) :
    ∃ d', d.shuffle draw = .ok d' ∧ d'.cards.Perm d.cards ∧
      d'.cards.length = d.cards.length ∧ ∀ c, d'.cards.count c = d.cards.count c := by
  obtain ⟨out, h1, h2⟩ := shuffle_ok d draw hv
  exact ⟨⟨out⟩, h1, h2, h2.length_eq, fun c => h2.count_eq c⟩

theorem shuffle_perm_witness :
    ValidDraws threeCards.cards.length (fun _ => 0) ∧
    ∃ d', threeCards.shuffle (fun _ => 0) = .ok d' ∧ d'.cards.Perm threeCards.cards ∧
      d'.cards.length = threeCards.cards.length ∧
      ∀ c, d'.cards.count c = threeCards.cards.count c :=
  ⟨fun _ _ _ => Nat.zero_le _,
    shuffle_perm threeCards (fun _ => 0) (fun _ _ _ => Nat.zero_le _)⟩

/-! ## Dealt cards and the deck left behind -/

theorem dealHand_disjoint (d : Deck) (hn : d.cards.Nodup) (size : Int) (h0 : 0 ≤ size)
    (hle : size ≤ (d.cards.length : Int)) :
    ∃ r, d.dealHand size = .ok r ∧ ∀ c ∈ r.hand, c ∉ r.deck.cards := by
  refine ⟨_, dealHand_of_le d size h0 hle, ?_⟩
  intro c hc hc'
  exact List.disjoint_take_drop hn (Nat.le_refl _) hc hc'

/-! ## The scenario of `main` -/

/-- C6: for every outcome of the shuffle, from `newDeck()` and `shuffle()`, `dealHand(50)`
returns 50 cards and leaves 2; `dealHand(10)` is clamped, returns exactly those 2 cards and
leaves 0; a further `dealHand(1)` returns 0 cards and leaves the deck at 0. -/
theorem scenario (draw : Nat → Nat) (hv : ValidDraws 52 draw) :
    ∃ d0 d1 r1 r2 r3, newDeck = .ok d0 ∧ d0.cards.length = 52 ∧
      d0.shuffle draw = .ok d1 ∧ d1.cards.length = 52 ∧
      d1.dealHand 50 = .ok r1 ∧ r1.hand.length = 50 ∧ r1.deck.cards.length = 2 ∧
      r1.deck.dealHand 10 = .ok r2 ∧ r2.hand = r1.deck.cards ∧ r2.hand.length = 2 ∧
      r2.out = ["Not enough cards in the deck. Dealing 2 cards instead."] ∧
      r2.deck.cards.length = 0 ∧
      r2.deck.dealHand 1 = .ok r3 ∧ r3.hand.length = 0 ∧ r3.deck.cards.length = 0 := by
  obtain ⟨out, hs, hp⟩ := shuffle_ok ⟨cardNames.flatMap fun r => suitNames.map fun s => ⟨r, s⟩⟩
    draw hv
  have hlen : out.length = 52 := hp.length_eq
  have h50 : (50 : Int) ≤ ((Deck.mk out).cards.length : Int) := by
    show (50 : Int) ≤ (out.length : Int)
    omega
  have hrest : (out.drop 50).length = 2 := by
    rw [List.length_drop]
    omega
  have h10 : (((Deck.mk (out.drop 50)).cards.length : Nat) : Int) < 10 := by
    show ((out.drop 50).length : Int) < 10
    omega
  have h1 : (((Deck.mk []).cards.length : Nat) : Int) < 1 := by decide
  refine ⟨_, ⟨out⟩, _, _, _, newDeck_eq, rfl, hs, hlen,
    dealHand_of_le ⟨out⟩ 50 (by decide) h50, ?_, hrest,
    dealHand_of_gt ⟨out.drop 50⟩ 10 h10, rfl, hrest, ?_, rfl,
    dealHand_of_gt ⟨[]⟩ 1 h1, rfl, rfl⟩
  · show (out.take 50).length = 50
    rw [List.length_take]
    omega
  · show ["Not enough cards in the deck. Dealing " ++ toString ((out.drop 50).length : Int)
      ++ " cards instead."] = _
    rw [hrest]
    rfl

theorem scenario_witness :
    ValidDraws 52 (fun i => i) ∧
    ∃ d0 d1 r1 r2 r3, newDeck = .ok d0 ∧ d0.cards.length = 52 ∧
      d0.shuffle (fun i => i) = .ok d1 ∧ d1.cards.length = 52 ∧
      d1.dealHand 50 = .ok r1 ∧ r1.hand.length = 50 ∧ r1.deck.cards.length = 2 ∧
      r1.deck.dealHand 10 = .ok r2 ∧ r2.hand = r1.deck.cards ∧ r2.hand.length = 2 ∧
      r2.out = ["Not enough cards in the deck. Dealing 2 cards instead."] ∧
      r2.deck.cards.length = 0 ∧
      r2.deck.dealHand 1 = .ok r3 ∧ r3.hand.length = 0 ∧ r3.deck.cards.length = 0 :=
  ⟨fun _ _ _ => Nat.le_refl _, scenario (fun i => i) (fun _ _ _ => Nat.le_refl _)⟩

/-! ## Shuffle reaches every ordering exactly once -/

/-- C7: on a deck of `n` pairwise distinct cards, running `shuffle()` on a sequence of
draws (`draw i` in `[0, i]` for the positions `i` from `n - 1` down to `1`) is a bijection
onto the permutations of the deck: every draw sequence yields a permutation, and every
permutation is yielded by exactly one draw sequence (a draw sequence being its values at
the positions `1, ..., n - 1`). -/
theorem shuffle_bijective (d : Deck) (hn : d.cards.Nodup) :
    (∀ draw, ValidDraws d.cards.length draw →
      ∃ p, d.shuffle draw = .ok ⟨p⟩ ∧ p.Perm d.cards) ∧
    (∀ p : List Card, p.Perm d.cards →
      ∃ draw, ValidDraws d.cards.length draw ∧ d.shuffle draw = .ok ⟨p⟩ ∧
        ∀ draw', ValidDraws d.cards.length draw' → d.shuffle draw' = .ok ⟨p⟩ →
          ∀ i, 1 ≤ i → i < d.cards.length → draw' i = draw i) := by
  have hpos : d.cards.length - 1 < d.cards.length ∨ d.cards.length - 1 = 0 := by omega
  have hloop : ∀ draw out, d.shuffle draw = .ok ⟨out⟩ →
      shuffleLoop draw (d.cards.length - 1) d.cards = .ok out := by
    intro draw out h
    unfold Deck.shuffle at h
    cases hc : shuffleLoop draw (d.cards.length - 1) d.cards with
    | error e => rw [hc] at h; cases h
    | ok o =>
      rw [hc] at h
      have : Deck.mk o = Deck.mk out := Except.ok.inj h
      rw [Deck.mk.injEq] at this
      rw [this]
  refine ⟨fun draw hv => shuffle_ok d draw hv, ?_⟩
  intro p hp
  obtain ⟨draw, hdraw, hrun⟩ := shuffleLoop_onto (d.cards.length - 1) d.cards p hn hpos hp
    (by
      intro m hm
      rw [List.getElem?_eq_none (by have := hp.length_eq; omega),
        List.getElem?_eq_none (by omega)])
  have hvalid : ValidDraws d.cards.length draw := fun i h1 h2 => hdraw i h1 (by omega)
  have hshuffle : d.shuffle draw = .ok ⟨p⟩ := by
    unfold Deck.shuffle
    rw [hrun]
    rfl
  refine ⟨draw, hvalid, hshuffle, ?_⟩
  intro draw' hv' hrun' i h1 h2
  exact shuffleLoop_inj draw' draw (d.cards.length - 1) d.cards hn hpos
    (fun k h1 h2 => hv' k h1 (by omega)) (fun k h1 h2 => hdraw k h1 h2)
    (by rw [hloop draw' p hrun', hrun]) i h1 (by omega)

theorem shuffle_bijective_witness :
    threeCards.cards.Nodup ∧
    (∀ draw, ValidDraws threeCards.cards.length draw →
      ∃ p, threeCards.shuffle draw = .ok ⟨p⟩ ∧ p.Perm threeCards.cards) ∧
    (∀ p : List Card, p.Perm threeCards.cards →
      ∃ draw, ValidDraws threeCards.cards.length draw ∧ threeCards.shuffle draw = .ok ⟨p⟩ ∧
        ∀ draw', ValidDraws threeCards.cards.length draw' →
          threeCards.shuffle draw' = .ok ⟨p⟩ →
          ∀ i, 1 ≤ i → i < threeCards.cards.length → draw' i = draw i) :=
  ⟨by decide, shuffle_bijective threeCards (by decide)⟩

/-! ## Order of the new deck -/

/-- C8: `newDeck()` is in rank-major order: for every rank index `i` in `[0, 13)` and suit
index `j` in `[0, 4)`, position `4 * i + j` holds the card `cardNames[i]` of `suitNames[j]`;
the first card is the Ace of Spades, the last the King of Clubs; and every call returns
this same deck. -/
theorem newDeck_order :
    ∃ d, newDeck = .ok d ∧
      (∀ (i : Fin 13) (j : Fin 4),
        d.cards[4 * i.val + j.val]? = some ⟨cardNames.get i, suitNames.get j⟩) ∧
      d.cards.head? = some ⟨"Ace", "Spades"⟩ ∧
      d.cards.getLast? = some ⟨"King", "Clubs"⟩ ∧
      ∀ d', newDeck = .ok d' → d' = d := by
  refine ⟨_, newDeck_eq, ?_, rfl, rfl, ?_⟩
  · decide
  · intro d' h
    rw [newDeck_eq] at h
    exact (Except.ok.inj h).symm

/-! ## Totality of `dealHand` -/

theorem dealHand_nonneg (d : Deck) (size : Int) (h0 : 0 ≤ size) :
    ∃ r, d.dealHand size = .ok r ∧
      r.hand = d.cards.take size.toNat ∧ r.deck.cards = d.cards.drop size.toNat := by
  by_cases hle : size ≤ (d.cards.length : Int)
  · exact ⟨_, dealHand_of_le d size h0 hle, rfl, rfl⟩
  · have hgt : (d.cards.length : Int) < size := by omega
    have hn : d.cards.length ≤ size.toNat := by omega
    refine ⟨_, dealHand_of_gt d size hgt, ?_, ?_⟩
    · exact (List.take_of_length_le hn).symm
    · exact (List.drop_eq_nil_of_le hn).symm

/-- C9: for every deck and every `size ≥ 0`, `dealHand(size)` completes without failure:
the hand it returns is no longer than the deck, every read `d.cards[i]` of the copy loop
(one for each position `i` of the hand) is within bounds and gives the card copied to that
position, and the reslice at the length of the hand is within bounds. -/
theorem dealHand_total (d : Deck) (size : Int) (h0 : 0 ≤ size) :
    ∃ r, d.dealHand size = .ok r ∧
      r.hand.length ≤ d.cards.length ∧
      (∀ i, i < r.hand.length → ∃ c, index d.cards i = .ok c ∧ r.hand[i]? = some c) ∧
      r.deck.cards = d.cards.drop r.hand.length := by
  obtain ⟨r, hr, hh, hd⟩ := dealHand_nonneg d size h0
  have hlen : r.hand.length = min size.toNat d.cards.length := by
    rw [hh, List.length_take]
  refine ⟨r, hr, by omega, ?_, ?_⟩
  · intro i hi
    have hi' : i < d.cards.length := by omega
    refine ⟨d.cards[i], index_of_lt _ _ hi', ?_⟩
    rw [hh, List.getElem?_take, if_pos (by omega), List.getElem?_eq_getElem hi']
  · rw [hd, hlen]
    by_cases hle : size.toNat ≤ d.cards.length
    · rw [Nat.min_eq_left hle]
    · have hge : d.cards.length ≤ size.toNat := by omega
      rw [Nat.min_eq_right hge, List.drop_eq_nil_of_le hge, List.drop_length]

theorem dealHand_total_witness :
    (0 : Int) ≤ 5 ∧
    ∃ r, threeCards.dealHand 5 = .ok r ∧
      r.hand.length ≤ threeCards.cards.length ∧
      (∀ i, i < r.hand.length →
        ∃ c, index threeCards.cards i = .ok c ∧ r.hand[i]? = some c) ∧
      r.deck.cards = threeCards.cards.drop r.hand.length :=
  ⟨by decide, dealHand_total threeCards 5 (by decide)⟩

/-! ## The size of the deck over its lifetime -/

theorem step_length (d : Deck) (op : Op) (hop : op.Valid) :
    ∃ d', step d op = .ok d' ∧ d'.cards.length ≤ d.cards.length ∧
      ∀ draw, op = .shuffle draw → d'.cards.length = d.cards.length := by
  cases op with
  | shuffle draw =>
    obtain ⟨out, h1, h2⟩ := shuffle_ok d draw (fun i h1 _ => hop i h1)
    exact ⟨⟨out⟩, h1, Nat.le_of_eq h2.length_eq, fun _ _ => h2.length_eq⟩
  | dealHand size =>
    obtain ⟨r, hr, _, hd⟩ := dealHand_nonneg d size hop
    refine ⟨r.deck, ?_, ?_, fun draw h => by cases h⟩
    · simp [step, hr, bind, Except.bind]
      rfl
    · rw [hd, List.length_drop]
      omega

theorem run_length (ops : List Op) :
    ∀ d : Deck, (∀ o ∈ ops, o.Valid) →
      ∃ d', run d ops = .ok d' ∧ d'.cards.length ≤ d.cards.length := by
  induction ops with
  | nil => intro d _; exact ⟨d, rfl, Nat.le_refl _⟩
  | cons op ops ih =>
    intro d h
    obtain ⟨d1, h1, hl1, _⟩ := step_length d op (h op (List.mem_cons_self _ _))
    obtain ⟨d2, h2, hl2⟩ := ih d1 (fun o ho => h o (List.mem_cons_of_mem _ ho))
    refine ⟨d2, ?_, by omega⟩
    simp [run, h1, bind, Except.bind, h2]

/-- C10: the number of cards of a deck never grows: starting from `newDeck()` (52 cards),
after every sequence `ops` of `shuffle()` and `dealHand(size)` calls with `size ≥ 0` and one
more such call `op`, every call succeeds, the deck is no larger than before the last call
and has at most 52 cards, and when the last call is a `shuffle()` the size is unchanged. -/
theorem deck_size_monotone (ops : List Op) (op : Op) (hops : ∀ o ∈ ops, o.Valid)
    (hop : op.Valid) :
    ∃ d0 d d', newDeck = .ok d0 ∧ d0.cards.length = 52 ∧
      run d0 ops = .ok d ∧ step d op = .ok d' ∧
      d.cards.length ≤ 52 ∧ d'.cards.length ≤ d.cards.length ∧ d'.cards.length ≤ 52 ∧
      ∀ draw, op = .shuffle draw → d'.cards.length = d.cards.length := by
  obtain ⟨d, hd, hl⟩ := run_length ops
    ⟨cardNames.flatMap fun r => suitNames.map fun s => ⟨r, s⟩⟩ hops
  obtain ⟨d', hd', hl', hs⟩ := step_length d op hop
  have h52 : d.cards.length ≤ 52 := hl
  exact ⟨_, d, d', newDeck_eq, rfl, hd, hd', h52, hl', by omega, hs⟩

theorem deck_size_monotone_witness :
    (∀ o ∈ [Op.shuffle (fun _ => 0), Op.dealHand 50], o.Valid) ∧ (Op.dealHand 10).Valid ∧
    ∃ d0 d d', newDeck = .ok d0 ∧ d0.cards.length = 52 ∧
      run d0 [Op.shuffle (fun _ => 0), Op.dealHand 50] = .ok d ∧
      step d (Op.dealHand 10) = .ok d' ∧
      d.cards.length ≤ 52 ∧ d'.cards.length ≤ d.cards.length ∧ d'.cards.length ≤ 52 ∧
      ∀ draw, Op.dealHand 10 = .shuffle draw → d'.cards.length = d.cards.length :=
  ⟨by simp [Op.Valid], by simp [Op.Valid],
    deck_size_monotone [Op.shuffle (fun _ => 0), Op.dealHand 50] (Op.dealHand 10)
      (by simp [Op.Valid]) (by simp [Op.Valid])⟩

/-! ## Boundary cases of `dealHand` and `shuffle` -/

/-- C11: a deck with no cards is terminal: for every `size ≥ 0`, `dealHand(size)` on it
returns an empty hand without error and leaves the deck empty. -/
theorem dealHand_exhausted (d : Deck) (hd : d.cards = []) (size : Int) (h0 : 0 ≤ size) :
    ∃ r, d.dealHand size = .ok r ∧ r.hand = [] ∧ r.deck.cards = [] := by
  obtain ⟨r, hr, hh, hk⟩ := dealHand_nonneg d size h0
  refine ⟨r, hr, ?_, ?_⟩
  · rw [hh, hd, List.take_nil]
  · rw [hk, hd, List.drop_nil]

theorem dealHand_exhausted_witness :
    (Deck.mk []).cards = [] ∧ (0 : Int) ≤ 1 ∧
    ∃ r, (Deck.mk []).dealHand 1 = .ok r ∧ r.hand = [] ∧ r.deck.cards = [] :=
  ⟨rfl, by decide, dealHand_exhausted ⟨[]⟩ rfl 1 (by decide)⟩

/-- C12: for every deck, `dealHand(0)` returns an empty hand and leaves the deck as it
was: the same cards in the same order. -/
theorem dealHand_zero (d : Deck) :
    ∃ r, d.dealHand 0 = .ok r ∧ r.hand = [] ∧ r.deck = d ∧ r.deck.cards = d.cards :=
  ⟨_, dealHand_of_le d 0 (Int.le_refl 0) (Int.ofNat_nonneg _), rfl, rfl, rfl⟩

/-- C13: on a deck of 0 or 1 cards `shuffle()` is a no-op, whatever the random source
gives: no draw is made and the deck is left equal to what it was. -/
theorem shuffle_small (d : Deck) (draw : Nat → Nat) (h : d.cards.length ≤ 1) :
    d.shuffle draw = .ok d := by
  have h0 : d.cards.length - 1 = 0 := by omega
  unfold Deck.shuffle
  rw [h0]
  rfl

theorem shuffle_small_witness :
    (Deck.mk [⟨"Ace", "Spades"⟩]).cards.length ≤ 1 ∧
    (Deck.mk [⟨"Ace", "Spades"⟩]).shuffle (fun i => i) = .ok (Deck.mk [⟨"Ace", "Spades"⟩]) :=
  ⟨by decide, shuffle_small ⟨[⟨"Ace", "Spades"⟩]⟩ (fun i => i) (by decide)⟩

/-! ## The random card -/

/-- C14: `randomCard()` never fails and yields a valid card: for every rank draw in
`[0, 13)` and suit draw in `[0, 4)` both table lookups are in bounds, the card returned
has rank `cardNames[card]` and suit `suitNames[suit]`, and it is one of the 52 cards of
`newDeck()`. -/
theorem randomCard_valid (card suit : Nat) (hc : card < NUM_CARDS) (hs : suit < NUM_SUITS) :
    ∃ r s d, cardNames[card]? = some r ∧ suitNames[suit]? = some s ∧
      randomCard card suit = .ok ⟨r, s⟩ ∧
      newDeck = .ok d ∧ d.cards.length = 52 ∧ (⟨r, s⟩ : Card) ∈ d.cards := by
  have hc' : card < cardNames.length := hc
  have hs' : suit < suitNames.length := hs
  refine ⟨cardNames[card], suitNames[suit], _, List.getElem?_eq_getElem hc',
    List.getElem?_eq_getElem hs', ?_, newDeck_eq, rfl, ?_⟩
  · simp [randomCard, index_of_lt _ _ hc', index_of_lt _ _ hs', bind, Except.bind]
    rfl
  · rw [List.mem_flatMap]
    exact ⟨cardNames[card], List.getElem_mem hc',
      List.mem_map.mpr ⟨suitNames[suit], List.getElem_mem hs', rfl⟩⟩

theorem randomCard_valid_witness :
    12 < NUM_CARDS ∧ 3 < NUM_SUITS ∧
    ∃ r s d, cardNames[12]? = some r ∧ suitNames[3]? = some s ∧
      randomCard 12 3 = .ok ⟨r, s⟩ ∧
      newDeck = .ok d ∧ d.cards.length = 52 ∧ (⟨r, s⟩ : Card) ∈ d.cards :=
  ⟨by decide, by decide, randomCard_valid 12 3 (by decide) (by decide)⟩

/-! ## Reporting -/

theorem foldl_lines (f : Card → String) (cards : List Card) :
    ∀ out : List String,
      cards.foldl (fun out card => out ++ [f card]) out = out ++ cards.map f := by
  induction cards with
  | nil => intro out; simp
  | cons c cs ih =>
    intro out
    rw [List.foldl_cons, ih, List.map_cons, List.append_assoc]
    rfl

/-- C15: `Deck.read()` only reports: it leaves the deck (size and order of the cards)
unchanged, it prints the line `There are N cards in the deck.` followed by one line
`<rank> of <suit>` per card in the current order, and a second `read()` right after the
first prints the same lines. -/
theorem read_pure (d : Deck) :
    (d.read).1 = d ∧ (d.read).1.cards.length = d.cards.length ∧
    (d.read).2 = ("There are " ++ toString d.cards.length ++ " cards in the deck.")
      :: d.cards.map (fun c => c.card ++ " of " ++ c.suit) ∧
    ((d.read).1.read).2 = (d.read).2 := by
  refine ⟨rfl, rfl, ?_, rfl⟩
  show d.cards.foldl (fun out card => out ++ [card.read]) _ = _
  rw [foldl_lines Card.read]
  rfl

theorem read_threeCards :
    threeCards.read = (threeCards,
      ["There are 3 cards in the deck.", "Ace of Spades", "Two of Hearts", "King of Clubs"]) := by
  rfl

/-! ## Distinct cards along every run -/

theorem step_nodup (d : Deck) (op : Op) (hop : op.Valid) (hn : d.cards.Nodup) :
    ∃ d', step d op = .ok d' ∧ d'.cards.Nodup ∧ ∀ c ∈ d'.cards, c ∈ d.cards := by
  cases op with
  | shuffle draw =>
    obtain ⟨out, h1, h2⟩ := shuffle_ok d draw (fun i h1 _ => hop i h1)
    exact ⟨⟨out⟩, h1, h2.nodup_iff.mpr hn, fun c hc => h2.subset hc⟩
  | dealHand size =>
    obtain ⟨r, hr, _, hd⟩ := dealHand_nonneg d size hop
    refine ⟨r.deck, ?_, ?_, ?_⟩
    · simp [step, hr, bind, Except.bind]
      rfl
    · rw [hd]
      exact hn.sublist (List.drop_sublist _ _)
    · intro c hc
      rw [hd] at hc
      exact List.mem_of_mem_drop hc

theorem run_nodup (ops : List Op) :
    ∀ d : Deck, (∀ o ∈ ops, o.Valid) → d.cards.Nodup →
      ∃ d', run d ops = .ok d' ∧ d'.cards.Nodup ∧ ∀ c ∈ d'.cards, c ∈ d.cards := by
  induction ops with
  | nil => intro d _ hn; exact ⟨d, rfl, hn, fun _ hc => hc⟩
  | cons op ops ih =>
    intro d h hn
    obtain ⟨d1, h1, hn1, hs1⟩ := step_nodup d op (h op (List.mem_cons_self _ _)) hn
    obtain ⟨d2, h2, hn2, hs2⟩ := ih d1 (fun o ho => h o (List.mem_cons_of_mem _ ho)) hn1
    refine ⟨d2, ?_, hn2, fun c hc => hs1 c (hs2 c hc)⟩
    simp [run, h1, bind, Except.bind, h2]

/-- C5: on every deck the program builds, that is every deck reached from `newDeck()` by
`shuffle()` calls and `dealHand(size)` calls with `size ≥ 0`, with `N` the number of its
cards and `0 ≤ size ≤ N`: after `dealHand(size)` none of the cards of the returned hand is
in the deck. -/
theorem dealHand_absent (ops : List Op) (hops : ∀ o ∈ ops, o.Valid) :
    ∃ d0 d, newDeck = .ok d0 ∧ run d0 ops = .ok d ∧
      ∀ size : Int, 0 ≤ size → size ≤ (d.cards.length : Int) →
        ∃ r, d.dealHand size = .ok r ∧ (r.hand.length : Int) = size ∧
          ∀ c ∈ r.hand, c ∉ r.deck.cards := by
  have hn0 : (Deck.mk (cardNames.flatMap fun r => suitNames.map fun s => ⟨r, s⟩)).cards.Nodup := by
    decide
  obtain ⟨d, hd, hn, _⟩ := run_nodup ops _ hops hn0
  refine ⟨_, d, newDeck_eq, hd, ?_⟩
  intro size h0 hle
  refine ⟨_, dealHand_of_le d size h0 hle, ?_, ?_⟩
  · simp only [List.length_take]
    omega
  · intro c hc hc'
    exact List.disjoint_take_drop hn (Nat.le_refl _) hc hc'

theorem dealHand_absent_witness :
    (∀ o ∈ [Op.shuffle (fun i => i / 2), Op.dealHand 5], o.Valid) ∧
    ∃ d0 d, newDeck = .ok d0 ∧
      run d0 [Op.shuffle (fun i => i / 2), Op.dealHand 5] = .ok d ∧
      ∀ size : Int, 0 ≤ size → size ≤ (d.cards.length : Int) →
        ∃ r, d.dealHand size = .ok r ∧ (r.hand.length : Int) = size ∧
          ∀ c ∈ r.hand, c ∉ r.deck.cards :=
  ⟨by simp [Op.Valid]; intro i _; omega,
    dealHand_absent [Op.shuffle (fun i => i / 2), Op.dealHand 5]
      (by simp [Op.Valid]; intro i _; omega)⟩

/-- C16: every deck reached from `newDeck()` by a sequence of `shuffle()` calls, with any
outcomes of the random source, and `dealHand(size)` calls with `size ≥ 0` holds no card
twice and only cards of the original 52; and a hand dealt from such a deck (so every hand
returned along the way) holds no card twice, only cards of the original 52, and no card of
the deck that remains after the deal. -/
theorem reachable_distinct (ops : List Op) (hops : ∀ o ∈ ops, o.Valid) :
    ∃ d0 d, newDeck = .ok d0 ∧ d0.cards.length = 52 ∧ run d0 ops = .ok d ∧
      d.cards.Nodup ∧ (∀ c ∈ d.cards, c ∈ d0.cards) ∧
      ∀ size : Int, 0 ≤ size →
        ∃ r, d.dealHand size = .ok r ∧ r.hand.Nodup ∧ (∀ c ∈ r.hand, c ∈ d0.cards) ∧
          ∀ c ∈ r.hand, c ∉ r.deck.cards := by
  have hn0 : (Deck.mk (cardNames.flatMap fun r => suitNames.map fun s => ⟨r, s⟩)).cards.Nodup := by
    decide
  obtain ⟨d, hd, hn, hs⟩ := run_nodup ops _ hops hn0
  refine ⟨_, d, newDeck_eq, rfl, hd, hn, hs, ?_⟩
  intro size h0
  obtain ⟨r, hr, hh, hk⟩ := dealHand_nonneg d size h0
  refine ⟨r, hr, ?_, ?_, ?_⟩
  · rw [hh]
    exact hn.sublist (List.take_sublist _ _)
  · intro c hc
    rw [hh] at hc
    exact hs c (List.mem_of_mem_take hc)
  · intro c hc hc'
    rw [hh] at hc
    rw [hk] at hc'
    exact List.disjoint_take_drop hn (Nat.le_refl _) hc hc'

theorem reachable_distinct_witness :
    (∀ o ∈ [Op.shuffle (fun i => i / 2), Op.dealHand 5, Op.shuffle (fun _ => 0)], o.Valid) ∧
    ∃ d0 d, newDeck = .ok d0 ∧ d0.cards.length = 52 ∧
      run d0 [Op.shuffle (fun i => i / 2), Op.dealHand 5, Op.shuffle (fun _ => 0)] = .ok d ∧
      d.cards.Nodup ∧ (∀ c ∈ d.cards, c ∈ d0.cards) ∧
      ∀ size : Int, 0 ≤ size →
        ∃ r, d.dealHand size = .ok r ∧ r.hand.Nodup ∧ (∀ c ∈ r.hand, c ∈ d0.cards) ∧
          ∀ c ∈ r.hand, c ∉ r.deck.cards :=
  ⟨by simp [Op.Valid]; intro i _; omega,
    reachable_distinct [Op.shuffle (fun i => i / 2), Op.dealHand 5, Op.shuffle (fun _ => 0)]
      (by simp [Op.Valid]; intro i _; omega)⟩

/-! ## Negative sizes -/

theorem dealHandState_of_le (d : Deck) (size : Int) (h0 : 0 ≤ size)
    (hle : size ≤ (d.cards.length : Int)) :
    d.dealHandState size
      = (⟨d.cards.drop size.toNat⟩, .ok (d.cards.take size.toNat, [])) := by
  obtain ⟨k, rfl⟩ := Int.eq_ofNat_of_zero_le h0
  have hk : k ≤ d.cards.length := by exact_mod_cast hle
  have hng : ¬ ((d.cards.length : Int) < (k : Int)) := by omega
  simp [Deck.dealHandState, hng, makeCards_ofNat, copyLoop_fresh _ _ hk, hk]

theorem dealHandState_of_gt (d : Deck) (size : Int) (hgt : (d.cards.length : Int) < size) :
    d.dealHandState size
      = (⟨[]⟩, .ok (d.cards,
          ["Not enough cards in the deck. Dealing " ++ toString (d.cards.length : Int)
            ++ " cards instead."])) := by
  simp [Deck.dealHandState, hgt, makeCards_ofNat, copyLoop_fresh _ _ (Nat.le_refl _)]

theorem dealHandState_of_neg (d : Deck) (size : Int) (hneg : size < 0) :
    d.dealHandState size = (d, .error .makeLenOutOfRange) := by
  have hng : ¬ ((d.cards.length : Int) < size) := by omega
  simp [Deck.dealHandState, hng, makeCards, hneg]

theorem dealHand_of_neg (d : Deck) (size : Int) (hneg : size < 0) :
    d.dealHand size = .error .makeLenOutOfRange := by
  have hng : ¬ ((d.cards.length : Int) < size) := by omega
  simp [Deck.dealHand, hng, makeCards, hneg, bind, Except.bind]

/-- The two embeddings of `dealHand` agree: same outcome, and on success the deck held by
the receiver is the deck of the result. -/
theorem dealHandState_agrees (d : Deck) (size : Int) :
    (d.dealHandState size).2 = (d.dealHand size).map (fun r => (r.hand, r.out)) ∧
    ∀ r, d.dealHand size = .ok r → (d.dealHandState size).1 = r.deck := by
  by_cases hneg : size < 0
  · rw [dealHandState_of_neg d size hneg, dealHand_of_neg d size hneg]
    exact ⟨rfl, fun r h => by cases h⟩
  · by_cases hle : size ≤ (d.cards.length : Int)
    · rw [dealHandState_of_le d size (by omega) hle, dealHand_of_le d size (by omega) hle]
      refine ⟨rfl, fun r h => ?_⟩
      rw [← Except.ok.inj h]
    · rw [dealHandState_of_gt d size (by omega), dealHand_of_gt d size (by omega)]
      refine ⟨rfl, fun r h => ?_⟩
      rw [← Except.ok.inj h]

/-- C18: for every deck and every `size < 0`, `dealHand(size)` fails: the allocation of
the hand panics on the negative length, no hand is returned, and the receiver still holds
the deck it held before the call. -/
theorem dealHand_negative (d : Deck) (size : Int) (hneg : size < 0) :
    d.dealHand size = .error .makeLenOutOfRange ∧
    d.dealHandState size = (d, .error .makeLenOutOfRange) :=
  ⟨dealHand_of_neg d size hneg, dealHandState_of_neg d size hneg⟩

theorem dealHand_negative_witness :
    (-1 : Int) < 0 ∧
    threeCards.dealHand (-1) = .error .makeLenOutOfRange ∧
    threeCards.dealHandState (-1) = (threeCards, .error .makeLenOutOfRange) :=
  ⟨by decide, dealHand_negative threeCards (-1) (by decide)⟩

/-! ## Successive deals -/

theorem addInt_of_le (a b : Int) (ha : 0 ≤ a) (hb : 0 ≤ b) (hsum : a + b ≤ maxInt) :
    addInt a b = a + b := by
  unfold addInt
  unfold maxInt at hsum
  omega

theorem dealHand_add (d : Deck) (a b : Int) (ha : 0 ≤ a) (hb : 0 ≤ b) :
    ∃ r1 r2 r, d.dealHand a = .ok r1 ∧ r1.deck.dealHand b = .ok r2 ∧
      d.dealHand (a + b) = .ok r ∧ r1.hand ++ r2.hand = r.hand ∧ r2.deck = r.deck := by
  obtain ⟨r1, h1, hh1, hk1⟩ := dealHand_nonneg d a ha
  obtain ⟨r2, h2, hh2, hk2⟩ := dealHand_nonneg r1.deck b hb
  obtain ⟨r, h, hh, hk⟩ := dealHand_nonneg d (a + b) (by omega)
  have hsum : (a + b).toNat = a.toNat + b.toNat := Int.toNat_add ha hb
  refine ⟨r1, r2, r, h1, h2, h, ?_, ?_⟩
  · rw [hh1, hh2, hk1, hh, hsum, List.take_add]
  · have hc : r2.deck.cards = r.deck.cards := by
      rw [hk2, hk1, hk, hsum, List.drop_drop]
    cases hd2 : r2.deck
    cases hd : r.deck
    rw [hd2, hd] at hc
    exact congrArg Deck.mk hc

/-- C17, as stated, fails when the sum of the two sizes overflows `int`: with `a` the
largest `int` and `b = 1`, `dealHand(a)` followed by `dealHand(b)` succeeds on the
three-card deck, but `a + b` wraps around to `-2^63` and the single `dealHand(a + b)`
panics in the allocation of the hand, so it returns no hand to compare. -/
theorem dealHand_compose_counterexample :
    (0 : Int) ≤ maxInt ∧ (0 : Int) ≤ 1 ∧
    (∃ r1 r2, threeCards.dealHand maxInt = .ok r1 ∧ r1.deck.dealHand 1 = .ok r2) ∧
    addInt maxInt 1 = -2 ^ 63 ∧
    threeCards.dealHand (addInt maxInt 1) = .error .makeLenOutOfRange := by
  refine ⟨by decide, by decide, ?_, by decide, ?_⟩
  · exact ⟨_, _, dealHand_of_gt threeCards maxInt (by decide),
      dealHand_of_gt ⟨[]⟩ 1 (by decide)⟩
  · exact dealHand_of_neg threeCards (addInt maxInt 1) (by decide)

/-- C17, amended: successive deals compose when the sum of the sizes does not overflow:
for every deck and all `int` sizes `a ≥ 0`, `b ≥ 0` with `a + b` at most the largest `int`,
the hands of `dealHand(a)` followed by `dealHand(b)` concatenate to the hand of a single
`dealHand(a + b)` on the same starting deck, and both routes leave the same deck, also
when a deal is clamped. -/
theorem dealHand_compose (d : Deck) (a b : Int) (ha : 0 ≤ a) (hb : 0 ≤ b)
    (hsum : a + b ≤ maxInt) :
    ∃ r1 r2 r, d.dealHand a = .ok r1 ∧ r1.deck.dealHand b = .ok r2 ∧
      d.dealHand (addInt a b) = .ok r ∧ r1.hand ++ r2.hand = r.hand ∧ r2.deck = r.deck := by
  rw [addInt_of_le a b ha hb hsum]
  exact dealHand_add d a b ha hb

theorem dealHand_compose_witness :
    (0 : Int) ≤ 2 ∧ (0 : Int) ≤ 4 ∧ (2 : Int) + 4 ≤ maxInt ∧
    ∃ r1 r2 r, threeCards.dealHand 2 = .ok r1 ∧ r1.deck.dealHand 4 = .ok r2 ∧
      threeCards.dealHand (addInt 2 4) = .ok r ∧ r1.hand ++ r2.hand = r.hand ∧
      r2.deck = r.deck :=
  ⟨by decide, by decide, by decide,
    dealHand_compose threeCards 2 4 (by decide) (by decide) (by decide)⟩

end Cards
